import Mathlib

set_option maxRecDepth 8192

/-!
# Verification of the elevenlabs-docs-mcp documentation indexing and query engine

Shallow embedding, in Lean 4, of the core of the `elevenlabs-docs-mcp`
repository: the ETL parsers (`etl/parse-markdown.mjs`, `etl/parse-openapi.mjs`),
the parquet record store (`etl/write-parquet.mjs`), and the query handlers
(`handleSearchDocs` with its tiered matching, `extractSnippet`, `handleGetDoc`).

JavaScript strings are modelled as Lean `String` / `List Char`; SQL `NULL`able
columns as `Option`; the DuckDB connection and the filesystem as explicit
oracles.  SQL query fragments (`WHERE`, `ORDER BY`, `LIMIT`, `ILIKE`,
`levenshtein`) are given their standard relational semantics over the list of
rows of the scanned parquet file, with `ORDER BY` modelled as a stable sort
and a `WHERE` clause that is `NULL` treated as not satisfied.
-/

/-! ## Basic string utilities shared by the handlers -/

/-- ASCII lowercase of a character list, modelling `String.prototype.toLowerCase`
(resp. SQL `lower`) on the ASCII strings handled by this codebase. -/
def lowerList (s : List Char) : List Char := s.map Char.toLower

/-- The characters matched by the JavaScript regex class `\s`
(restricted to ASCII, which is all this corpus uses). -/
def isJsWs (c : Char) : Bool :=
  c = ' ' || c = '\t' || c = '\n' || c = '\r' || c = '\x0b' || c = '\x0c'

/-- `String.prototype.trim`: strip whitespace from both ends. -/
def trimList (s : List Char) : List Char :=
  ((s.dropWhile isJsWs).reverse.dropWhile isJsWs).reverse

/-- `hay.includes(needle)` on JavaScript strings: `needle` occurs as a
contiguous substring of `hay`. -/
def containsSub (hay needle : List Char) : Bool :=
  needle.isPrefixOf hay ||
    match hay with
    | [] => false
    | _ :: t => containsSub t needle

/-- Case-insensitive substring containment, the composite
`hay.toLowerCase().includes(needle.toLowerCase())` used throughout the
query handlers. -/
def containsCI (hay needle : String) : Bool :=
  containsSub (lowerList hay.data) (lowerList needle.data)

/-- `content.split(/\r?\n/)`: split into lines at `\r\n` or `\n`. -/
def splitLinesAux (acc : List Char) : List Char → List (List Char)
  | [] => [acc.reverse]
  | '\r' :: '\n' :: rest => acc.reverse :: splitLinesAux [] rest
  | '\n' :: rest => acc.reverse :: splitLinesAux [] rest
  | c :: rest => splitLinesAux (c :: acc) rest

/-- The lines of a content string, as split by `content.split(/\r?\n/)`. -/
def splitLines (s : List Char) : List (List Char) := splitLinesAux [] s

mutual

/-- `query.split(/\s+/)`: split at maximal whitespace runs (a leading
whitespace run produces a leading empty token, exactly as in JavaScript). -/
def splitWsAux (acc : List Char) : List Char → List (List Char)
  | [] => [acc.reverse]
  | c :: rest =>
    if isJsWs c then acc.reverse :: splitWsSkip rest
    else splitWsAux (c :: acc) rest

/-- Consume the remainder of a whitespace run, then resume token collection. -/
def splitWsSkip : List Char → List (List Char)
  | [] => [[]]
  | c :: rest =>
    if isJsWs c then splitWsSkip rest
    else splitWsAux [c] rest

end

/-- `query.split(/\s+/)` as a whole. -/
def splitWs (s : List Char) : List (List Char) := splitWsAux [] s

/-- `lines.slice(start, stop).join('\n')`s joining step. -/
def joinLines (ls : List (List Char)) : List Char := List.intercalate ['\n'] ls

/-! ## SnippetExtractor (`extractSnippet`, `src/handlers/searchDocsHandler.ts`) -/

/-- The regex match `line.match(/^#+\s+(.*)/)`: one or more `#`, one or more
whitespace characters, and the captured remainder of the line. -/
def mdHeadingMatch (line : List Char) : Option (List Char) :=
  let afterHashes := line.dropWhile (· = '#')
  if (line.takeWhile (· = '#')).length ≥ 1 then
    if (afterHashes.takeWhile isJsWs).length ≥ 1 then
      some (afterHashes.dropWhile isJsWs)
    else none
  else none

/-- A character of the regex class `[a-zA-Z0-9_-]`. -/
def isYamlKeyChar (c : Char) : Bool :=
  ('a' ≤ c && c ≤ 'z') || ('A' ≤ c && c ≤ 'Z') || ('0' ≤ c && c ≤ '9') ||
    c = '_' || c = '-'

/-- The regex match `line.match(/^([a-zA-Z0-9_-]+):\s*$/)` with its capture. -/
def yamlKeyMatch (line : List Char) : Option (List Char) :=
  let key := line.takeWhile isYamlKeyChar
  if key.length ≥ 1 then
    match line.dropWhile isYamlKeyChar with
    | ':' :: tail => if tail.all isJsWs then some key else none
    | _ => none
  else none

/-- One iteration of the section scan: the trimmed capture of the first
matching pattern (Markdown heading tried before YAML key) on one line. -/
def sectionOfLine (line : List Char) : Option (List Char) :=
  match mdHeadingMatch line with
  | some t => some (trimList t)
  | none =>
    match yamlKeyMatch line with
    | some t => some (trimList t)
    | none => none

/-- The downward scan from the match line for the nearest preceding Markdown
heading or YAML top-level key (the `for (let i = matchLine; i >= 0; i--)`
loop shared by both `extractSnippet` variants). -/
def findSectionFrom (lines : List (List Char)) : Nat → Option (List Char)
  | 0 => sectionOfLine (lines.getD 0 [])
  | j + 1 =>
    match sectionOfLine (lines.getD (j + 1) []) with
    | some t => some t
    | none => findSectionFrom lines j

/-- Result shape of the snippet extractors
(`{ snippet, section?, lineNumber? }`). -/
structure SnippetResult where
  snippet : List Char
  sectionLabel : Option (List Char)
  lineNumber : Option Nat
deriving Repr, DecidableEq

/-- The index, if any, of the first line containing the query
case-insensitively (`for` loop with `break` in `extractSnippet`). -/
def firstMatchLine (lines : List (List Char)) (lowerQuery : List Char) :
    Option Nat :=
  lines.findIdx? fun l => containsSub (lowerList l) lowerQuery

/-- `extractSnippet(content, query, linesContext = 2)` from
`src/handlers/searchDocsHandler.ts` (the variant with a context window):
find the first line containing the query case-insensitively; if found return
`lines.slice(max(0, m - ctx), min(len, m + ctx + 1))` joined by newlines,
the nearest preceding section heading, and the 1-based line number; if not
found return the first three lines with no section and no line number. -/
def extractSnippet (content query : List Char) (linesContext : Nat := 2) :
    SnippetResult :=
  let lines := splitLines content
  let lowerQuery := lowerList query
  match firstMatchLine lines lowerQuery with
  | none => ⟨joinLines (lines.take 3), none, none⟩
  | some matchLine =>
    let start := matchLine - linesContext
    let stop := min lines.length (matchLine + linesContext + 1)
    ⟨joinLines ((lines.take stop).drop start),
      findSectionFrom lines matchLine, some (matchLine + 1)⟩

/-- `extractSnippet(content, query)` as defined locally in the DuckDB-backed
`handleSearchDocs` (`src/unnamed/part_014`): same first-match search and
section scan, but the snippet is only the matching line itself. -/
def extractSnippetLine (content query : List Char) : SnippetResult :=
  let lines := splitLines content
  let lowerQuery := lowerList query
  match firstMatchLine lines lowerQuery with
  | none => ⟨joinLines (lines.take 3), none, none⟩
  | some matchLine =>
    ⟨lines.getD matchLine [], findSectionFrom lines matchLine,
      some (matchLine + 1)⟩

example :
    extractSnippet "a\nb\nc\nQ here\ne\nf\ng\nh\ni\nj".data "q".data 2 =
      ⟨"b\nc\nQ here\ne\nf".data, none, some 4⟩ := by decide

example :
    (extractSnippet "l1\nl2\nl3\nl4\nl5\nl6\nl7\nl8\nl9\nl10".data "L5".data
        2).snippet = "l3\nl4\nl5\nl6\nl7".data := by decide

example :
    extractSnippet "x\ny\nz\nw".data "nope".data 3 =
      ⟨"x\ny\nz".data, none, none⟩ := by decide

/-! ## SQL primitive semantics: `LIKE` / `ILIKE` and `levenshtein`

Both are given fuel-indexed structurally recursive definitions (the fuel is
instantiated with a provably sufficient bound) so that concrete instances
reduce inside the kernel. -/

/-- SQL `LIKE` pattern matching: `%` matches any (possibly empty) substring,
`_` matches exactly one character, any other pattern character matches
itself.  `fuel` bounds the recursion depth; `likeMatch` below supplies a
sufficient amount. -/
def likeFuel : Nat → List Char → List Char → Bool
  | _, [], s => s.isEmpty
  | 0, _ :: _, _ => false
  | f + 1, p :: ps, s =>
    if p = '%' then
      likeFuel f ps s ||
        match s with
        | [] => false
        | _ :: t => likeFuel f (p :: ps) t
    else if p = '_' then
      match s with
      | [] => false
      | _ :: t => likeFuel f ps t
    else
      match s with
      | [] => false
      | c :: t => p = c && likeFuel f ps t

/-- SQL `LIKE` with adequate fuel: every recursive step of `likeFuel` strictly
decreases `pattern.length + subject.length`, so this fuel never runs out. -/
def likeMatch (pattern s : List Char) : Bool :=
  likeFuel (pattern.length + s.length) pattern s

/-- DuckDB `x ILIKE pattern`: case-insensitive `LIKE`, on a nullable column
(`NULL` is not satisfied). -/
def sqlIlike (field : Option String) (pattern : String) : Bool :=
  match field with
  | none => false
  | some f => likeMatch (lowerList pattern.data) (lowerList f.data)

/-- Levenshtein edit distance by the standard recurrence, fuel-indexed.
`fuel` bounds recursion depth; `levDist` supplies a sufficient amount. -/
def levFuel : Nat → List Char → List Char → Nat
  | _, [], ys => ys.length
  | _, x :: xs, [] => (x :: xs).length
  | 0, _ :: _, _ :: _ => 0
  | f + 1, x :: xs, y :: ys =>
    if x = y then levFuel f xs ys
    else 1 + min (levFuel f xs (y :: ys)) (min (levFuel f (x :: xs) ys) (levFuel f xs ys))

/-- DuckDB `levenshtein(a, b)`: each recursive step of `levFuel` strictly
decreases `a.length + b.length`, so this fuel never runs out. -/
def levDist (a b : List Char) : Nat := levFuel (a.length + b.length) a b

example : levDist "alpha".data "zebra".data = 4 := by decide
example : levDist "kitten".data "sitting".data = 3 := by decide
example : likeMatch "%voi%".data "the voice".data = true := by decide
example : likeMatch "a_c".data "axc".data = true := by decide
example : likeMatch "a_c".data "abbc".data = false := by decide

/-! ## QueryEngine data model

Rows of the two parquet artifacts read by `handleSearchDocs`
(`api_spec.parquet`, written from `etl/parse-openapi.mjs` output, and
`docs_content.parquet`, written from `etl/parse-markdown.mjs` output).
Nullable columns are `Option`-valued. -/

/-- One row of `api_spec.parquet` (an operation record or a schema record;
the `type` column discriminates). -/
structure ApiRow where
  filePath : String
  fileName : String
  rowType : String
  apiPath : Option String
  method : Option String
  summary : Option String
  description : Option String
  content : String
  lineNumber : Option Int
  schemaDefinition : Option String
deriving Repr, DecidableEq

/-- One row of `docs_content.parquet` (a ContentBlock). -/
structure MdRow where
  filePath : String
  fileName : String
  heading1 : Option String
  heading2 : Option String
  heading3 : Option String
  contentType : String
  language : Option String
  content : String
  lineNumber : Nat
  order : Nat
  fullContent : Option String
deriving Repr, DecidableEq

/-- A row of the `combined_results` CTE in the fuzzy tier of
`handleSearchDocs` (the union of the two selects, with `NULL` placeholder
columns). -/
structure CombinedRow where
  filePath : String
  fileName : String
  content : String
  lineNumber : Option Int
  sourceType : String
  summary : Option String
  description : Option String
  apiPath : Option String
  method : Option String
  heading1 : Option String
  heading2 : Option String
  heading3 : Option String
  contentType : Option String
  language : Option String
deriving Repr, DecidableEq

/-- The api-side select of the fuzzy tier's `combined_results`. -/
def apiToCombined (r : ApiRow) : CombinedRow :=
  ⟨r.filePath, r.fileName, r.content, r.lineNumber, "api", r.summary,
    r.description, r.apiPath, r.method, none, none, none, none, none⟩

/-- The markdown-side select of the fuzzy tier's `combined_results`. -/
def mdToCombined (r : MdRow) : CombinedRow :=
  ⟨r.filePath, r.fileName, r.content, some (Int.ofNat r.lineNumber), "markdown",
    none, none, none, none, r.heading1, r.heading2, r.heading3,
    some r.contentType, r.language⟩

/-! ## QueryEngine: `handleSearchDocs` (`src/unnamed/part_014`) -/

/-- JavaScript truthiness of a nullable string (`null`, `undefined` and `""`
are falsy). -/
def jsTruthy (o : Option String) : Bool :=
  match o with
  | none => false
  | some s => !s.isEmpty

/-- JavaScript `a || b` on a nullable string with a string fallback. -/
def jsOrStr (a : Option String) (b : String) : String :=
  match a with
  | some s => if s.isEmpty then b else s
  | none => b

/-- JavaScript template interpolation of a nullable string
(`null` prints as `"null"`). -/
def jsInterp (o : Option String) : String := o.getD "null"

/-- An uppercase ASCII letter, the regex class `[A-Z]`. -/
def isUpperAZ (c : Char) : Bool := 'A' ≤ c && c ≤ 'Z'

/-- The regex class `[A-Za-z0-9_]`. -/
def isIdentChar (c : Char) : Bool :=
  ('A' ≤ c && c ≤ 'Z') || ('a' ≤ c && c ≤ 'z') || ('0' ≤ c && c ≤ '9') || c = '_'

/-- The alternatives of the optional suffix group
`(Request|Response|Model)?`. -/
def idSuffixes : List (List Char) :=
  ["Request".data, "Response".data, "Model".data, []]

/-- The test `/^[A-Z][A-Za-z0-9_]+(Request|Response|Model)?$/.test(query)`
selecting the exact-identifier fast path. -/
def isExactSchemaQuery (q : String) : Bool :=
  match q.data with
  | [] => false
  | c :: rest =>
    isUpperAZ c &&
      idSuffixes.any fun suf =>
        suf.isSuffixOf rest &&
          (let stem := rest.take (rest.length - suf.length)
           stem.length ≥ 1 && stem.all isIdentChar)

/-- The `WHERE` clause of the exact-identifier fast path:
`summary = ? OR fileName = ? OR lower(summary) LIKE lower(?) OR
lower(fileName) LIKE lower(?) OR lower(schemaDefinition) LIKE lower(?) OR
lower(content) LIKE lower(?)` with the last four parameters `%query%`. -/
def exactWhere (q : String) (r : ApiRow) : Bool :=
  r.summary == some q || r.fileName == q ||
    sqlIlike r.summary ("%" ++ q ++ "%") ||
    sqlIlike (some r.fileName) ("%" ++ q ++ "%") ||
    sqlIlike r.schemaDefinition ("%" ++ q ++ "%") ||
    sqlIlike (some r.content) ("%" ++ q ++ "%")

/-- The rows produced by the exact-identifier tier's SQL: the filtered scan
of `api_spec.parquet`, truncated by `LIMIT ?`.  The statement has no
`ORDER BY`, so rows keep the artifact's row order. -/
def exactTierRows (q : String) (lim : Nat) (api : List ApiRow) : List ApiRow :=
  (api.filter (exactWhere q)).take lim

/-- `const fuzzyThreshold = 2` in `handleSearchDocs`. -/
def fuzzyThreshold : Nat := 2

/-- One generated clause pair of `buildWordClauses` for a word and a field:
`field ILIKE '%word%' OR levenshtein(lower(field), lower(word)) <= threshold`
(`NULL` fields satisfy neither). -/
def wordClauseHit (field : Option String) (word : String) (thr : Nat) : Bool :=
  sqlIlike field ("%" ++ word ++ "%") ||
    match field with
    | none => false
    | some f => levDist (lowerList f.data) (lowerList word.data) ≤ thr

/-- The field list `apiFields = [content, summary, description, apiPath,
method]` as the nullable values of one row. -/
def apiTestedFields (r : ApiRow) : List (Option String) :=
  [some r.content, r.summary, r.description, r.apiPath, r.method]

/-- The api-side fuzzy `WHERE`: the `buildWordClauses(apiFields)` clauses
joined by `OR` — a flat disjunction over every (word, field) pair. -/
def fuzzyApiWhere (words : List String) (r : ApiRow) : Bool :=
  words.any fun w => (apiTestedFields r).any fun f => wordClauseHit f w fuzzyThreshold

/-- The markdown-side fuzzy `WHERE`: `buildWordClauses(["content"])` joined
by `OR`. -/
def fuzzyMdWhere (words : List String) (r : MdRow) : Bool :=
  words.any fun w => wordClauseHit (some r.content) w fuzzyThreshold

/-- `query.split(/\s+/).map(w => w.trim()).filter(Boolean)`. -/
def queryWords (q : String) : List String :=
  (((splitWs q.data).map trimList).filter fun w => !w.isEmpty).map List.asString

/-- The `UNION ALL` body of the fuzzy tier's `combined_results` CTE: the
filtered api rows followed by the filtered markdown rows. -/
def fuzzyCombined (words : List String) (api : List ApiRow) (md : List MdRow) :
    List CombinedRow :=
  (api.filter (fuzzyApiWhere words)).map apiToCombined ++
    (md.filter (fuzzyMdWhere words)).map mdToCombined

/-- Stable insertion of a row into a path-sorted list: the row goes after
every row with a strictly smaller path and before the first row whose path
is greater or equal (so earlier input rows precede later ones on ties). -/
def insertByPath (x : CombinedRow) : List CombinedRow → List CombinedRow
  | [] => [x]
  | y :: ys =>
    if decide (y.filePath < x.filePath) then y :: insertByPath x ys
    else x :: y :: ys

/-- `ORDER BY filePath`, modelled as a stable sort on the file path
(ties keep the input order, i.e. the artifact's original row order). -/
def orderByFilePath : List CombinedRow → List CombinedRow
  | [] => []
  | x :: xs => insertByPath x (orderByFilePath xs)

/-- The rows of the fuzzy tier: `SELECT * FROM combined_results ORDER BY
filePath LIMIT ?`. -/
def fuzzyTierRows (words : List String) (lim : Nat) (api : List ApiRow)
    (md : List MdRow) : List CombinedRow :=
  (orderByFilePath (fuzzyCombined words api md)).take lim

/-- One formatted search result (`SearchDocsResultItem`). -/
structure ResultItem where
  name : String
  path : String
  repository : String
  url : String
  snippet : String
  sectionLabel : Option String
  lineNumber : Option Int
  schemaDefinition : Option String
deriving Repr, DecidableEq

/-- The common post-processing of a snippet-extractor result against a row's
initial section/line: `if (snippetObj.lineNumber) lineNumber = ...;
if (snippetObj.section) section = ...`. -/
def applySnippetObj (sn : SnippetResult) (sec0 : Option String)
    (line0 : Option Int) : Option String × Option Int :=
  (match sn.sectionLabel with
    | some t => if t.isEmpty then sec0 else some t.asString
    | none => sec0,
   match sn.lineNumber with
    | some n => some (Int.ofNat n)
    | none => line0)

/-- Result formatting of the exact-identifier tier
(`dbResults.map` in the `isExactSchemaQuery` branch). -/
def formatExactRow (q : String) (r : ApiRow) : ResultItem :=
  let sec0 : Option String :=
    if jsTruthy r.apiPath then
      some (r.apiPath.getD "" ++ " (" ++ jsInterp r.method ++ ")")
    else r.summary
  let sn := extractSnippetLine r.content.data q.data
  let (sec, line) := applySnippetObj sn sec0 r.lineNumber
  { name := r.fileName
    path := r.filePath
    repository := "elevenlabs/elevenlabs-docs"
    url := "https://github.com/elevenlabs/elevenlabs-docs/blob/main/" ++ r.filePath
    snippet := sn.snippet.asString
    sectionLabel := if jsTruthy sec then sec else none
    lineNumber := line
    schemaDefinition := if jsTruthy r.schemaDefinition then r.schemaDefinition else none }

/-- Result formatting of the fuzzy tier (`dbResults.map` after the
combined query; the fuzzy select carries no `schemaDefinition` and no
`fullContent` column). -/
def formatFuzzyRow (q : String) (r : CombinedRow) : ResultItem :=
  let modelName : Option String :=
    if r.sourceType = "api" then some (jsOrStr r.summary r.fileName) else none
  let sec0 : Option String :=
    if r.sourceType = "api" then
      (if jsTruthy r.apiPath then
        some (r.apiPath.getD "" ++ " (" ++ jsInterp r.method ++ ")")
      else modelName)
    else if r.sourceType = "markdown" then
      some (" > ".intercalate
        (([r.heading1, r.heading2, r.heading3].filter jsTruthy).map (·.getD "")))
    else none
  let sn := extractSnippetLine r.content.data q.data
  let (sec, line) := applySnippetObj sn sec0 r.lineNumber
  let snippet :=
    if r.sourceType = "api" && jsTruthy modelName then
      "Model: " ++ modelName.getD "" ++ "\n" ++ sn.snippet.asString
    else sn.snippet.asString
  { name := r.fileName
    path := r.filePath
    repository := "elevenlabs/elevenlabs-docs"
    url := "https://github.com/elevenlabs/elevenlabs-docs/blob/main/" ++ r.filePath
    snippet := snippet
    sectionLabel := if jsTruthy sec then sec else none
    lineNumber := line
    schemaDefinition := none }

/-- `handleSearchDocs(args, service)` from `src/unnamed/part_014`: reject an
empty or missing query; answer identifier-shaped queries entirely from the
exact-identifier fast path over `api_spec.parquet`; otherwise run the
multi-word fuzzy tier over both artifacts. -/
def handleSearchDocs (query : String) (lim : Nat) (api : List ApiRow)
    (md : List MdRow) : Except String (List ResultItem) :=
  if query.isEmpty then .error "Missing required argument: query"
  else if isExactSchemaQuery query then
    .ok ((exactTierRows query lim api).map (formatExactRow query))
  else
    .ok ((fuzzyTierRows (queryWords query) lim api md).map (formatFuzzyRow query))

/-! ## SpecParser (`etl/parse-openapi.mjs`)

JavaScript values reachable from a schema object are modelled as a graph:
`JVal` is a primitive or a reference into a heap that maps object identities
to their fields.  Object identity — what the `WeakSet` in `safeStringify`
tracks — is the heap id. -/

/-- A JavaScript value: a primitive, or an object reference (by identity). -/
inductive JVal where
  | vnull
  | vbool (b : Bool)
  | vnum (n : Int)
  | vstr (s : String)
  | vobj (id : Nat)
deriving Repr, DecidableEq

/-- A heap of JavaScript objects: object identity to field list. -/
def JHeap : Type := List (Nat × List (String × JVal))

/-- The fields of the object with a given identity (an identity absent from
the heap behaves as an empty object). -/
def heapFields (h : JHeap) (id : Nat) : List (String × JVal) :=
  (List.lookup id h).getD []

/-- The distinct object identities of a heap. -/
def heapIds (h : JHeap) : List Nat := (h.map Prod.fst).dedup

/-- JSON rendering of a string value.  (The corpus strings serialized here
contain no characters needing JSON escapes, which are elided.) -/
def renderJsonStr (s : String) : String := "\"" ++ s ++ "\""

mutual

/-- The recursive walk of `JSON.stringify(obj, replacer)` in `safeStringify`:
the replacer substitutes the marker `"[Circular]"` for any object whose
identity is already in the shared `seen` `WeakSet`, and otherwise adds the
identity to `seen` before descending into the fields.  `seen` is threaded
through the whole traversal (siblings included), exactly like the mutable
`WeakSet`.  `fuel` bounds the nesting depth of object expansions;
`safeStringify` below supplies a provably sufficient amount, and `none`
means the fuel ran out.  (Output is rendered compactly; the `2`-space
pretty-printing of `JSON.stringify` is presentation only.) -/
def serializeVal (h : JHeap) : Nat → JVal → List Nat → Option (String × List Nat)
  | _, .vnull, seen => some ("null", seen)
  | _, .vbool b, seen => some (if b then "true" else "false", seen)
  | _, .vnum n, seen => some (toString n, seen)
  | _, .vstr s, seen => some (renderJsonStr s, seen)
  | fuel, .vobj id, seen =>
    if id ∈ seen then some (renderJsonStr "[Circular]", seen)
    else
      match fuel with
      | 0 => none
      | f + 1 =>
        match serializeFields h f (heapFields h id) (id :: seen) with
        | none => none
        | some (inner, seen2) => some ("\x7b" ++ inner ++ "\x7d", seen2)
termination_by fuel _ _ => (fuel, 0)

/-- Serialization of an object's field list, left to right, threading the
shared `seen` set. -/
def serializeFields (h : JHeap) :
    Nat → List (String × JVal) → List Nat → Option (String × List Nat)
  | _, [], seen => some ("", seen)
  | f, (k, v) :: rest, seen =>
    match serializeVal h f v seen with
    | none => none
    | some (s, seen1) =>
      match serializeFields h f rest seen1 with
      | none => none
      | some (srest, seen2) =>
        some (renderJsonStr k ++ ":" ++ s ++ (if rest.isEmpty then "" else ",") ++ srest,
          seen2)
termination_by f fields _ => (f, fields.length + 1)

end

/-- A nesting depth that can never be exhausted: one object expansion per
distinct heap identity, plus one for a dangling reference. -/
def heapBound (h : JHeap) : Nat := (heapIds h).length + 1

/-- `safeStringify(obj)` from `etl/parse-openapi.mjs`: `JSON.stringify` with
a replacer that re-writes every object already seen (by identity) to the
marker `"[Circular]"`. -/
def safeStringify (h : JHeap) (v : JVal) : String :=
  match serializeVal h (heapBound h) v [] with
  | some (s, _) => s
  | none => ""

/-- JavaScript `a || null` on a nullable string. -/
def jsOrNone (a : Option String) : Option String :=
  if jsTruthy a then a else none

/-- One mdast node. -/
inductive MdNode where
  | node (ty : String) (depth : Nat) (value : String) (lang : Option String)
      (startLine : Option Nat) (children : List MdNode)

mutual

/-- `toString(node)` from `mdast-util-to-string`: the node's own `value` if
non-empty, else the concatenation over its children. -/
def mdToString : MdNode → String
  | .node _ _ v _ _ cs => if v.isEmpty then mdToStringList cs else v

/-- `toString` concatenated over a child list. -/
def mdToStringList : List MdNode → String
  | [] => ""
  | n :: rest => mdToString n ++ mdToStringList rest

end

/-- One extracted ContentBlock row (the object pushed onto `markdownData`). -/
structure ContentBlock where
  filePath : String
  fileName : String
  heading1 : Option String
  heading2 : Option String
  heading3 : Option String
  contentType : String
  language : Option String
  content : String
  lineNumber : Nat
  order : Nat
deriving Repr, DecidableEq

/-- The visitor state of one file's pass: the three-level heading stack
(`currentHeadings`), the block counter and the output array. -/
structure MdVisitState where
  h1 : Option String
  h2 : Option String
  h3 : Option String
  blockOrder : Nat
  out : List ContentBlock
deriving Repr, DecidableEq

/-- The node-type allow-list `contentNodeTypes`. -/
def contentNodeTypes : List String :=
  ["paragraph", "code", "listItem", "tableCell", "blockquote"]

/-- The body of the `visit(ast, node => ...)` callback for one node: update
the heading stack (a level-1 heading resets levels 2 and 3, a level-2
heading resets level 3, a level-3 heading only sets level 3), then emit a
block if the node type is allow-listed, the node has a position, and the
extracted trimmed text is non-empty. -/
def mdVisitStep (fp fn : String) (st : MdVisitState) (n : MdNode) : MdVisitState :=
  match n with
  | .node ty depth _ lang pos _ =>
    let headingText := (trimList (mdToString n).data).asString
    let st :=
      if ty == "heading" then
        if depth == 1 then
          { st with h1 := some headingText, h2 := none, h3 := none }
        else if depth == 2 then { st with h2 := some headingText, h3 := none }
        else if depth == 3 then { st with h3 := some headingText }
        else st
      else st
    if contentNodeTypes.contains ty && pos.isSome then
      let extractedText := (trimList (mdToString n).data).asString
      if extractedText.isEmpty then st
      else
        { st with
            out := st.out ++
              [{ filePath := fp, fileName := fn, heading1 := st.h1,
                 heading2 := st.h2, heading3 := st.h3, contentType := ty,
                 language := if ty == "code" then jsOrNone lang else none,
                 content := extractedText, lineNumber := pos.getD 0,
                 order := st.blockOrder }]
            blockOrder := st.blockOrder + 1 }
    else st

mutual

/-- `unist-util-visit` in pre-order: the node itself, then its children. -/
def mdVisitNode (fp fn : String) (st : MdVisitState) : MdNode → MdVisitState
  | .node ty depth v lang pos cs =>
    mdVisitList fp fn (mdVisitStep fp fn st (.node ty depth v lang pos cs)) cs

/-- Pre-order visit of a child list. -/
def mdVisitList (fp fn : String) (st : MdVisitState) : List MdNode → MdVisitState
  | [] => st
  | n :: rest => mdVisitList fp fn (mdVisitNode fp fn st n) rest

end

/-- One file's pass of `parseMarkdownFiles`: visit the parsed AST with fresh
heading state and collect the emitted ContentBlocks in order. -/
def parseMarkdownAst (fp fn : String) (ast : MdNode) : List ContentBlock :=
  (mdVisitNode fp fn ⟨none, none, none, 0, []⟩ ast).out

/-! ## RecordStore (`etl/write-parquet.mjs`)

The DuckDB connection is an oracle deciding which statements succeed; the
observable state is the staged table and the exported parquet artifact. -/

/-- A JavaScript value appearing in a record row (the ETL emits strings,
numbers, booleans and nulls). -/
inductive SqlVal where
  | vnull
  | vstr (s : String)
  | vnum (n : Int)
  | vbool (b : Bool)
deriving Repr, DecidableEq

/-- `value.replace(/'/g, "''")`: double every single quote. -/
def escapeSqlChars : List Char → List Char
  | [] => []
  | c :: rest =>
    if c = Char.ofNat 39 then Char.ofNat 39 :: Char.ofNat 39 :: escapeSqlChars rest
    else c :: escapeSqlChars rest

/-- The SQL literal built for one value in `valueStrings` (null passthrough,
quote-escaped strings, `toString` for numbers and booleans). -/
def sqlLiteral : SqlVal → String
  | .vnull => "NULL"
  | .vstr s => "'" ++ (escapeSqlChars s.data).asString ++ "'"
  | .vnum n => toString n
  | .vbool b => if b then "true" else "false"

/-- Encoding of one row: project the record onto `columns` (missing keys
become `null`) and render each value as a SQL literal. -/
def encodeRow (columns : List String) (row : List (String × SqlVal)) :
    List String :=
  columns.map fun col =>
    match List.lookup col row with
    | some v => sqlLiteral v
    | none => sqlLiteral .vnull

/-- A statement run on the connection. -/
inductive DbOp where
  | dropTable
  | createTable
  | insertRow (vals : List String)
  | copyTo
deriving Repr, DecidableEq

/-- The observable state: the staged table (if created) and the exported
parquet artifact on disk (if any). -/
structure DbState where
  table : Option (List (List String))
  artifact : Option (List (List String))
deriving Repr, DecidableEq

/-- Effect of one successful statement. -/
def applyOp (st : DbState) : DbOp → DbState
  | .dropTable => { st with table := none }
  | .createTable => { st with table := some [] }
  | .insertRow vals => { st with table := some ((st.table.getD []) ++ [vals]) }
  | .copyTo => { st with artifact := st.table }

/-- The insertion loop of `writeDataToParquet`: each row is encoded and
inserted; a failed insert is logged and skipped (the row is dropped and not
counted), and the loop continues with the remaining rows. -/
def insertLoop (ok : DbOp → Bool) (columns : List String)
    (rows : List (List (String × SqlVal))) (st : DbState) (count : Nat) :
    DbState × Nat :=
  match rows with
  | [] => (st, count)
  | row :: rest =>
    let vals := encodeRow columns row
    if ok (.insertRow vals) then
      insertLoop ok columns rest (applyOp st (.insertRow vals)) (count + 1)
    else insertLoop ok columns rest st count

/-- `writeDataToParquet(data, tableName, createTableSql, columns,
outputParquetPath, connection)`: return immediately on an empty or missing
batch; otherwise drop and recreate the table, insert row by row skipping
failed rows, and export with `COPY ... TO ... (FORMAT PARQUET)`.  A failure
of drop, create or copy is re-thrown (`Except.error`); the returned count is
`insertedCount`. -/
def writeDataToParquet (ok : DbOp → Bool)
    (data : Option (List (List (String × SqlVal)))) (columns : List String)
    (st : DbState) : Except String (Option Nat) × DbState :=
  match data with
  | none => (.ok none, st)
  | some [] => (.ok none, st)
  | some rows =>
    if !ok .dropTable then (.error "drop failed", st)
    else
      let st1 := applyOp st .dropTable
      if !ok .createTable then (.error "create failed", st1)
      else
        let st2 := applyOp st1 .createTable
        let (st3, inserted) := insertLoop ok columns rows st2 0
        if !ok .copyTo then (.error "copy failed", st3)
        else (.ok (some inserted), applyOp st3 .copyTo)

/-! ## Fetch by path (`handleGetDoc`, `src/unnamed/part_008`) -/

/-- Outcome of `fs.readFile`: contents, `ENOENT`, or another I/O error. -/
inductive FsResult where
  | found (content : String)
  | enoent
  | ioError
deriving Repr, DecidableEq

/-- The errors thrown by `handleGetDoc`, distinguished exactly as the thrown
`Error` messages distinguish them. -/
inductive GetDocError where
  | missingArg
  | notFound (p : String)
  | retrieveFailed (p : String)
deriving Repr, DecidableEq

/-- `args.path.startsWith("fern/") ? args.path : "fern/" + args.path`
(`startsWith` spelled on the character lists so that it evaluates in the
kernel). -/
def fernPath (p : String) : String :=
  if "fern/".data.isPrefixOf p.data then p else "fern/" ++ p

/-- The filesystem fallback of `handleGetDoc`: read the original document
under `/app/elevenlabs-docs`; `ENOENT` becomes the not-found error, any
other failure the generic retrieval error. -/
def fallbackRead (fullPath : String) (fs : String → FsResult) :
    Except GetDocError String :=
  match fs ("/app/elevenlabs-docs/" ++ fullPath) with
  | .found c => .ok c
  | .enoent => .error (.notFound fullPath)
  | .ioError => .error (.retrieveFailed fullPath)

/-- `handleGetDoc(args, service)`: reject a missing path; prefer the row of
`docs_content.parquet` whose `filePath` equals the fern-normalized path
(`LIMIT 1`, content must be truthy); otherwise fall back to the filesystem. -/
def handleGetDoc (pathArg : String) (store : List MdRow)
    (fs : String → FsResult) : Except GetDocError String :=
  if pathArg.isEmpty then .error .missingArg
  else
    let fullPath := fernPath pathArg
    match (store.filter fun r => r.filePath == fullPath).take 1 with
    | r :: _ =>
      if !r.content.isEmpty then .ok r.content else fallbackRead fullPath fs
    | [] => fallbackRead fullPath fs

/-! ## Claim-side vocabulary

Predicates phrased the way the specification phrases them (case-insensitive
substring containment and edit distance), used to state the claims about the
`LIKE`/`levenshtein`-based code. -/

/-- A `LIKE` pattern fragment free of the wildcards `%` and `_`. -/
def noWild (w : List Char) : Bool := w.all fun c => !(c = '%' || c = '_')

/-- Case-insensitive substring containment on a nullable field. -/
def containsCIOpt (o : Option String) (q : String) : Bool :=
  match o with
  | some s => containsCI s q
  | none => false

/-- The specification's notion of a word hitting a field: the field contains
the word as a case-insensitive substring, or the edit distance between the
lowercased field and word is at most the fuzzy threshold (a `NULL` field is
hit by nothing). -/
def wordHitsFieldSpec (field : Option String) (w : String) : Bool :=
  match field with
  | none => false
  | some f =>
    containsCI f w || levDist (lowerList f.data) (lowerList w.data) ≤ fuzzyThreshold

/-- The specification's "equality-or-substring" matching of the
exact-identifier tier: equality on schema name (`summary`) or file name, or
case-insensitive substring containment in summary, file name, serialized
schema body, or content. -/
def eqOrSubstr (q : String) (r : ApiRow) : Bool :=
  r.summary == some q || r.fileName == q || containsCIOpt r.summary q ||
    containsCI r.fileName q || containsCIOpt r.schemaDefinition q ||
    containsCI r.content q

example : isExactSchemaQuery "VoiceSettingsResponseModel" = true := by decide
example : isExactSchemaQuery "Ab" = true := by decide
example : isExactSchemaQuery "A_C" = true := by decide
example : isExactSchemaQuery "alpha zebra" = false := by decide
example : isExactSchemaQuery "A" = false := by decide
example : queryWords "  voice   settings " = ["voice", "settings"] := by decide

/-! ## Helper lemmas: `LIKE '%w%'` is substring containment for wildcard-free `w` -/

theorem likeFuel_pct_any (s : List Char) :
    ∀ f, s.length < f → likeFuel f ['%'] s = true := by
  induction s with
  | nil =>
    intro f hf
    match f, hf with
    | f + 1, _ => simp [likeFuel]
  | cons c t ih =>
    intro f hf
    match f, hf with
    | f + 1, hf =>
      have ht : t.length < f := Nat.lt_of_succ_lt_succ hf
      simp [likeFuel, ih f ht]

theorem likeFuel_isPrefix (w : List Char) :
    ∀ (s : List Char) (f : Nat), noWild w = true → w.length + s.length < f →
      likeFuel f (w ++ ['%']) s = w.isPrefixOf s := by
  induction w with
  | nil =>
    intro s f _ hf
    simp only [List.nil_append, List.isPrefixOf]
    exact likeFuel_pct_any s f (by simpa using hf)
  | cons p w ih =>
    intro s f hn hf
    simp only [noWild, List.all_cons, Bool.and_eq_true, Bool.not_eq_true',
      Bool.or_eq_false_iff, decide_eq_false_iff_not] at hn
    obtain ⟨⟨hp1, hp2⟩, hn2⟩ := hn
    have hn2' : noWild w = true := by simpa [noWild] using hn2
    match f, hf with
    | f + 1, hf =>
      cases s with
      | nil => simp [likeFuel, hp1, hp2, List.isPrefixOf]
      | cons c t =>
        have ht : w.length + t.length < f := by
          simp only [List.length_cons] at hf; omega
        simp only [likeFuel, hp1, hp2, if_false, List.cons_append, List.isPrefixOf,
          List.append_eq, ih t f hn2' ht]
        rw [show (p == c) = decide (p = c) from by rw [Bool.eq_iff_iff]; simp]

theorem likeFuel_sandwich (w : List Char) (hn : noWild w = true) :
    ∀ (s : List Char) (f : Nat), w.length + s.length + 1 < f →
      likeFuel f ('%' :: (w ++ ['%'])) s = containsSub s w := by
  intro s
  induction s with
  | nil =>
    intro f hf
    match f, hf with
    | f + 1, hf =>
      have hb : w.length + 0 < f := by omega
      simp only [likeFuel, if_pos rfl, containsSub]
      rw [likeFuel_isPrefix w [] f hn (by simpa using hb)]
      simp
  | cons c t ih =>
    intro f hf
    match f, hf with
    | f + 1, hf =>
      have hb : w.length + (c :: t).length < f := by omega
      have ht : w.length + t.length + 1 < f := by
        simp only [List.length_cons] at hb; omega
      simp only [likeFuel, if_pos rfl]
      rw [likeFuel_isPrefix w (c :: t) f hn hb, ih f ht]
      rw [containsSub]
      simp

theorem likeMatch_wildfree (w s : List Char) (hn : noWild w = true) :
    likeMatch ('%' :: (w ++ ['%'])) s = containsSub s w := by
  have : ('%' :: (w ++ ['%'])).length + s.length = w.length + s.length + 2 := by
    simp; omega
  rw [likeMatch, this]
  exact likeFuel_sandwich w hn s _ (by omega)

theorem sqlIlike_pct_eq_containsCI (fld q : String)
    (hq : noWild (lowerList q.data) = true) :
    sqlIlike (some fld) ("%" ++ q ++ "%") = containsCI fld q := by
  have hdata : ("%" ++ q ++ "%").data = '%' :: (q.data ++ ['%']) := by
    simp [String.data_append]
  have hlow : lowerList ('%' :: (q.data ++ ['%'])) =
      '%' :: (lowerList q.data ++ ['%']) := by
    simp [lowerList]
  rw [sqlIlike, hdata, hlow, likeMatch_wildfree _ _ hq, containsCI]

/-! ## C4: the snippet extractor -/

/-- **C4** (confirmed).  `extractSnippet` is a pure function such that, for
every content string, query and `contextLines`: if `m` is the first line
index (top to bottom) whose line contains the query case-insensitively, the
snippet is exactly the inclusive line window
`[m - contextLines, m + contextLines]` clamped to the content's bounds, and
`lineNumber` is the 1-based index `m + 1`; if no line contains the query,
the result is the first three lines with no section and no line number. -/
theorem extractSnippet_spec (content query : List Char) (ctx : Nat) :
    (∀ m : Nat, m < (splitLines content).length →
      containsSub (lowerList ((splitLines content).getD m []))
        (lowerList query) = true →
      (∀ j : Nat, j < m →
        containsSub (lowerList ((splitLines content).getD j []))
          (lowerList query) = false) →
      (extractSnippet content query ctx).snippet =
        joinLines
          (((splitLines content).take
              (min (m + ctx) ((splitLines content).length - 1) + 1)).drop
            (m - ctx)) ∧
      (extractSnippet content query ctx).lineNumber = some (m + 1)) ∧
    ((∀ l ∈ splitLines content,
        containsSub (lowerList l) (lowerList query) = false) →
      extractSnippet content query ctx =
        ⟨joinLines ((splitLines content).take 3), none, none⟩) := by
  constructor
  · intro m hm hp hq
    have hfind : firstMatchLine (splitLines content) (lowerList query) = some m := by
      rw [firstMatchLine, List.findIdx?_eq_some_iff_getElem]
      refine ⟨hm, ?_, ?_⟩
      · rw [← List.getD_eq_getElem (splitLines content) [] hm]
        exact hp
      · intro j hj
        have h2 := hq j hj
        rw [List.getD_eq_getElem (splitLines content) [] (Nat.lt_trans hj hm)] at h2
        simp [h2]
    have harith :
        min ((splitLines content).length) (m + ctx + 1) =
          min (m + ctx) ((splitLines content).length - 1) + 1 := by
      omega
    rw [extractSnippet]
    rw [hfind]
    simp only [harith]
    exact ⟨trivial, trivial⟩
  · intro hall
    have hfind : firstMatchLine (splitLines content) (lowerList query) = none := by
      rw [firstMatchLine, List.findIdx?_eq_none_iff]
      intro l hl
      simp [hall l hl]
    rw [extractSnippet, hfind]

/-- Witness for C4 at the specification's own example: content of 10 lines,
query matching line 5 (1-based), `contextLines = 2` — the snippet spans
lines 3–7 inclusive and `lineNumber` is 5. -/
theorem extractSnippet_spec_witness :
    (extractSnippet "l1\nl2\nl3\nl4\nl5\nl6\nl7\nl8\nl9\nl10".data "L5".data
        2).snippet =
      joinLines
        (((splitLines "l1\nl2\nl3\nl4\nl5\nl6\nl7\nl8\nl9\nl10".data).take
            (min (4 + 2)
              ((splitLines "l1\nl2\nl3\nl4\nl5\nl6\nl7\nl8\nl9\nl10".data).length
                - 1) + 1)).drop (4 - 2)) ∧
    (extractSnippet "l1\nl2\nl3\nl4\nl5\nl6\nl7\nl8\nl9\nl10".data "L5".data
        2).lineNumber = some 5 :=
  (extractSnippet_spec "l1\nl2\nl3\nl4\nl5\nl6\nl7\nl8\nl9\nl10".data
      "L5".data 2).1 4 (by decide) (by decide) (by decide)

/-! ## Helper lemmas: the stable path sort, and clause-level equivalences -/

theorem mem_insertByPath {z x : CombinedRow} :
    ∀ {l : List CombinedRow}, z ∈ insertByPath x l ↔ z = x ∨ z ∈ l := by
  intro l
  induction l with
  | nil => simp [insertByPath]
  | cons y ys ih =>
    rw [insertByPath]
    split
    · simp only [List.mem_cons, ih]
      tauto
    · simp [List.mem_cons]

theorem insertByPath_pairwise {x : CombinedRow} :
    ∀ {l : List CombinedRow},
      l.Pairwise (fun a b => a.filePath ≤ b.filePath) →
      (insertByPath x l).Pairwise (fun a b => a.filePath ≤ b.filePath) := by
  intro l
  induction l with
  | nil => intro _; simp [insertByPath]
  | cons y ys ih =>
    intro hl
    rw [insertByPath]
    split
    case isTrue hlt =>
      rw [List.pairwise_cons] at hl ⊢
      refine ⟨?_, ih hl.2⟩
      intro z hz
      rcases mem_insertByPath.mp hz with rfl | hz2
      · exact le_of_lt (by simpa using hlt)
      · exact hl.1 z hz2
    case isFalse hge =>
      rw [List.pairwise_cons]
      have hxy : x.filePath ≤ y.filePath := le_of_not_lt (by simpa using hge)
      refine ⟨?_, hl⟩
      intro z hz
      rcases List.mem_cons.mp hz with rfl | hz2
      · exact hxy
      · exact le_trans hxy (List.rel_of_pairwise_cons hl hz2)

theorem orderByFilePath_pairwise :
    ∀ l : List CombinedRow,
      (orderByFilePath l).Pairwise (fun a b => a.filePath ≤ b.filePath) := by
  intro l
  induction l with
  | nil => simp [orderByFilePath]
  | cons x xs ih => exact insertByPath_pairwise ih

theorem filter_insertByPath (x : CombinedRow) (p : String) :
    ∀ l : List CombinedRow,
      (insertByPath x l).filter (fun r => r.filePath == p) =
        (if x.filePath == p then [x] else []) ++
          l.filter (fun r => r.filePath == p) := by
  intro l
  induction l with
  | nil => cases hxp : (x.filePath == p) <;> simp [insertByPath, List.filter, hxp]
  | cons y ys ih =>
    rw [insertByPath]
    split
    case isTrue hlt =>
      cases hxp : (x.filePath == p) <;> cases hyp : (y.filePath == p)
      · simp [List.filter, hyp, ih, hxp]
      · simp [List.filter, hyp, ih, hxp]
      · simp [List.filter, hyp, ih, hxp]
      · exfalso
        have h1 : x.filePath = p := by simpa using hxp
        have h2 : y.filePath = p := by simpa using hyp
        have : y.filePath < x.filePath := by simpa using hlt
        rw [h1, h2] at this
        exact lt_irrefl p this
    case isFalse hge =>
      cases hxp : (x.filePath == p) <;> simp [List.filter, hxp]

theorem filter_orderByFilePath (p : String) :
    ∀ l : List CombinedRow,
      (orderByFilePath l).filter (fun r => r.filePath == p) =
        l.filter (fun r => r.filePath == p) := by
  intro l
  induction l with
  | nil => simp [orderByFilePath]
  | cons x xs ih =>
    rw [orderByFilePath, filter_insertByPath, ih]
    cases hxp : (x.filePath == p) <;> simp [List.filter, hxp]

theorem wordClauseHit_eq_spec (f : Option String) (w : String)
    (hw : noWild (lowerList w.data) = true) :
    wordClauseHit f w fuzzyThreshold = wordHitsFieldSpec f w := by
  cases f with
  | none => simp [wordClauseHit, wordHitsFieldSpec, sqlIlike]
  | some s =>
    rw [wordClauseHit, wordHitsFieldSpec, sqlIlike_pct_eq_containsCI s w hw]

theorem sqlIlike_opt_eq_containsCIOpt (q : String)
    (hq : noWild (lowerList q.data) = true) (o : Option String) :
    sqlIlike o ("%" ++ q ++ "%") = containsCIOpt o q := by
  cases o with
  | none => simp [sqlIlike, containsCIOpt]
  | some s => rw [sqlIlike_pct_eq_containsCI s q hq]; rfl

theorem isExactSchemaQuery_not_empty (q : String)
    (hq : isExactSchemaQuery q = true) : q.isEmpty = false := by
  by_contra h
  have h2 : q.isEmpty = true := by
    cases hqe : q.isEmpty
    · exact absurd hqe h
    · rfl
  have h3 : q = "" := (String.isEmpty_iff q).mp h2
  rw [h3] at hq
  exact absurd hq (by decide)

/-! ## C3: the exact-identifier fast path -/

/-- A schema row whose content is `"AxC"`: the identifier-shaped query
`"A_C"` returns it through the exact tier although no field equals or
contains `"A_C"` — the underscore acts as a SQL `LIKE` single-character
wildcard. -/
def c3Row : ApiRow :=
  ⟨"spec/openapi.json", "openapi.json", "schema", none, none, none, none,
    "AxC", none, none⟩

/-- **C3 counterexample**: `"A_C"` matches the identifier shape and the
exact tier returns `c3Row`, yet `c3Row` satisfies no equality and no
case-insensitive substring test for `"A_C"` — the tier's matching is not
"equality-or-substring" as claimed. -/
theorem exactTier_underscore_counterexample :
    isExactSchemaQuery "A_C" = true ∧
    handleSearchDocs "A_C" 10 [c3Row] [] =
      .ok [formatExactRow "A_C" c3Row] ∧
    eqOrSubstr "A_C" c3Row = false :=
  ⟨by decide, by rfl, by decide⟩

/-- **C3** (corrected).  For every identifier-shaped query the handler
answers from the exact-identifier fast path alone: the result is the
formatted image of the exact tier's rows, the markdown artifact (and hence
the fuzzy tier) is never consulted, at most `limit` rows are returned, and
every returned row passes the tier's `WHERE` clause; when the query contains
no SQL wildcard (`_` can occur in identifier queries and acts as a
single-character wildcard), that clause is exactly the claimed
equality-or-substring matching on summary, file name, serialized schema body
and content. -/
theorem exactTier_spec (q : String) (lim : Nat) (api : List ApiRow)
    (md md2 : List MdRow) (hq : isExactSchemaQuery q = true) :
    handleSearchDocs q lim api md =
      .ok ((exactTierRows q lim api).map (formatExactRow q)) ∧
    handleSearchDocs q lim api md = handleSearchDocs q lim api md2 ∧
    (exactTierRows q lim api).length ≤ lim ∧
    (∀ r ∈ exactTierRows q lim api, r ∈ api ∧ exactWhere q r = true) ∧
    (noWild (lowerList q.data) = true →
      ∀ r : ApiRow, exactWhere q r = eqOrSubstr q r) := by
  have hne : q.isEmpty = false := isExactSchemaQuery_not_empty q hq
  refine ⟨?_, ?_, ?_, ?_, ?_⟩
  · rw [handleSearchDocs]
    simp [hne, hq]
  · rw [handleSearchDocs, handleSearchDocs]
    simp [hne, hq]
  · rw [exactTierRows]
    exact List.length_take_le lim _
  · intro r hr
    have hr2 : r ∈ (api.filter (exactWhere q)) := List.mem_of_mem_take hr
    exact ⟨List.mem_of_mem_filter hr2, List.of_mem_filter hr2⟩
  · intro hw r
    rw [exactWhere, eqOrSubstr]
    simp only [sqlIlike_opt_eq_containsCIOpt q hw]
    simp [containsCIOpt]

/-- Witness for the corrected C3 at the specification's own example query
`"VoiceSettingsResponseModel"`. -/
def c3wApi : List ApiRow :=
  [⟨"p/openapi.json", "openapi.json", "schema", none, none,
    some "VoiceSettingsResponseModel", none, "", none, some "{}"⟩]

theorem exactTier_spec_witness :
    handleSearchDocs "VoiceSettingsResponseModel" 10 c3wApi [] =
      .ok ((exactTierRows "VoiceSettingsResponseModel" 10 c3wApi).map
        (formatExactRow "VoiceSettingsResponseModel")) :=
  (exactTier_spec "VoiceSettingsResponseModel" 10 c3wApi [] []
    (by decide)).1

/-! ## C1: the multi-word fuzzy tier -/

/-- A content block containing only `"alpha"`. -/
def c1Md : MdRow :=
  ⟨"docs/a.md", "a.md", none, none, none, "paragraph", none, "alpha", 3, 0,
    none⟩

/-- **C1 counterexample**: for the non-identifier query `"alpha zebra"` the
fuzzy tier returns the block whose content is only `"alpha"`, although the
word `"zebra"` hits no tested field (neither as a case-insensitive substring
nor within edit distance 2) — so a record is returned even when not every
query word hits a field: the generated clauses are joined by a flat `OR`. -/
theorem fuzzyTier_or_counterexample :
    handleSearchDocs "alpha zebra" 10 [] [c1Md] =
      .ok [formatFuzzyRow "alpha zebra" (mdToCombined c1Md)] ∧
    ((queryWords "alpha zebra").all fun w =>
      wordHitsFieldSpec (some c1Md.content) w) = false :=
  ⟨by rfl, by decide⟩

/-- **C1** (corrected).  For every query not matching the exact-identifier
shape, the query is split on whitespace into words and the handler returns
the formatted fuzzy-tier rows; a record is accepted by the tier's `WHERE`
clause if and only if **at least one** query word hits at least one of its
tested fields (not "every word" — all word/field clauses are joined by a
single `OR`), where a word hits a field when the field contains it as a
case-insensitive substring or the edit distance between the lowercased field
and word is at most the fixed threshold 2; operation-family records are
tested on content, summary, description, apiPath and method, content-block
records on content only.  (Stated for query words free of the SQL `LIKE`
wildcards `%` and `_`, for which the `ILIKE` test is substring
containment.) -/
theorem fuzzyTier_spec (q : String) (lim : Nat) (api : List ApiRow)
    (md : List MdRow) (hq : isExactSchemaQuery q = false)
    (hne : q.isEmpty = false)
    (hw : ∀ w ∈ queryWords q, noWild (lowerList w.data) = true) :
    handleSearchDocs q lim api md =
      .ok ((fuzzyTierRows (queryWords q) lim api md).map (formatFuzzyRow q)) ∧
    (∀ r : ApiRow, fuzzyApiWhere (queryWords q) r = true ↔
      ∃ w ∈ queryWords q, ∃ f ∈ apiTestedFields r,
        wordHitsFieldSpec f w = true) ∧
    (∀ r : MdRow, fuzzyMdWhere (queryWords q) r = true ↔
      ∃ w ∈ queryWords q, wordHitsFieldSpec (some r.content) w = true) := by
  refine ⟨?_, ?_, ?_⟩
  · rw [handleSearchDocs]
    simp [hne, hq]
  · intro r
    rw [fuzzyApiWhere, List.any_eq_true]
    constructor
    · rintro ⟨w, hwmem, hany⟩
      obtain ⟨f, hfmem, hhit⟩ := List.any_eq_true.mp hany
      refine ⟨w, hwmem, f, hfmem, ?_⟩
      rw [← wordClauseHit_eq_spec f w (hw w hwmem)]
      exact hhit
    · rintro ⟨w, hwmem, f, hfmem, hhit⟩
      refine ⟨w, hwmem, List.any_eq_true.mpr ⟨f, hfmem, ?_⟩⟩
      rw [wordClauseHit_eq_spec f w (hw w hwmem)]
      exact hhit
  · intro r
    rw [fuzzyMdWhere, List.any_eq_true]
    constructor
    · rintro ⟨w, hwmem, hhit⟩
      refine ⟨w, hwmem, ?_⟩
      rw [← wordClauseHit_eq_spec (some r.content) w (hw w hwmem)]
      exact hhit
    · rintro ⟨w, hwmem, hhit⟩
      refine ⟨w, hwmem, ?_⟩
      rw [wordClauseHit_eq_spec (some r.content) w (hw w hwmem)]
      exact hhit

/-- An operation record with `"voice"` in one field (summary) and
`"settings"` in a different field (description), the specification's own
example of independent per-word, per-field satisfaction. -/
def c1wApi : List ApiRow :=
  [⟨"spec/openapi.json", "openapi.json", "api", some "/v1/tts", some "POST",
    some "the voice", some "update settings", "tts endpoint", none, none⟩]

theorem fuzzyTier_spec_witness :
    handleSearchDocs "voice settings" 10 c1wApi [] =
      .ok ((fuzzyTierRows (queryWords "voice settings") 10 c1wApi []).map
        (formatFuzzyRow "voice settings")) ∧
    fuzzyApiWhere (queryWords "voice settings")
      (c1wApi.getD 0 ⟨"", "", "", none, none, none, none, "", none, none⟩) =
      true :=
  ⟨(fuzzyTier_spec "voice settings" 10 c1wApi [] (by decide) (by decide)
      (by decide)).1, by decide⟩

/-! ## C5: result ordering -/

/-- Two schema rows in artifact order `"b"` before `"a"`, both matched by
the identifier query `"Ab"`. -/
def c5RowB : ApiRow :=
  ⟨"b", "b.json", "schema", none, none, none, none, "Ab", none, none⟩

/-- See `c5RowB`. -/
def c5RowA : ApiRow :=
  ⟨"a", "a.json", "schema", none, none, none, none, "Ab", none, none⟩

/-- **C5 counterexample**: the exact-identifier tier has no `ORDER BY`, so
for the identifier query `"Ab"` over an artifact whose rows appear with file
paths `"b"` then `"a"`, the handler returns the results in that artifact
order — a sequence that is not ordered by file path. -/
theorem exactTier_not_path_ordered :
    handleSearchDocs "Ab" 10 [c5RowB, c5RowA] [] =
      .ok [formatExactRow "Ab" c5RowB, formatExactRow "Ab" c5RowA] ∧
    (formatExactRow "Ab" c5RowB).path = "b" ∧
    (formatExactRow "Ab" c5RowA).path = "a" ∧
    ¬ (["b", "a"] : List String).Pairwise (· ≤ ·) := by
  refine ⟨by rfl, by rfl, by rfl, ?_⟩
  intro h
  have hba : ("b" : String) ≤ "a" := List.rel_of_pairwise_cons h (by simp)
  have hab : ("a" : String) < "b" := by
    rw [String.lt_iff_toList_lt]
    decide
  exact absurd hba (not_le.mpr hab)

/-- **C5** (corrected).  The query operation is a pure function of the query
and the artifacts, so any two runs over the same artifacts return the same
sequence; in the multi-word fuzzy tier the returned rows are ordered by file
path, with the artifact's original row order (operation rows before content
rows) as the tie-break; but the exact-identifier tier carries no `ORDER BY`
and returns rows in the artifact's row order, not sorted by file path. -/
theorem ordering_spec (words : List String) (lim : Nat) (api : List ApiRow)
    (md : List MdRow) (q : String) (p : String) :
    ((fuzzyTierRows words lim api md).map (·.filePath)).Pairwise (· ≤ ·) ∧
    ((orderByFilePath (fuzzyCombined words api md)).filter
        (fun r => r.filePath == p) =
      (fuzzyCombined words api md).filter (fun r => r.filePath == p)) ∧
    exactTierRows q lim api = (api.filter (exactWhere q)).take lim := by
  refine ⟨?_, filter_orderByFilePath p _, rfl⟩
  rw [List.pairwise_map]
  exact ((orderByFilePath_pairwise _).sublist (List.take_sublist _ _))

/-! ## C7: the heading stack of the document parser -/

/-- The mdast tree of a document consisting of `# Overview`, then
`## Setup`, then a fenced code block. -/
def c7Ast : MdNode :=
  .node "root" 0 "" none (some 1)
    [.node "heading" 1 "" none (some 1)
       [.node "text" 0 "Overview" none (some 1) []],
     .node "heading" 2 "" none (some 3)
       [.node "text" 0 "Setup" none (some 3) []],
     .node "code" 0 "npm install" (some "bash") (some 5) []]

/-- **C7** (confirmed).  The parser's three-level heading stack: visiting a
level-1 heading sets `heading1` and resets `heading2` and `heading3`;
visiting a level-2 heading sets `heading2` and resets `heading3` while
preserving `heading1`; consequently the document `# Overview`, `## Setup`,
then a code block yields exactly one ContentBlock with
`heading1 = "Overview"`, `heading2 = "Setup"` and `heading3` null. -/
theorem parseMarkdown_heading_stack :
    (∀ (fp fn : String) (st : MdVisitState) (v : String) (lang : Option String)
        (pos : Option Nat) (cs : List MdNode),
      mdVisitStep fp fn st (.node "heading" 1 v lang pos cs) =
        { st with
            h1 := some ((trimList
              (mdToString (MdNode.node "heading" 1 v lang pos cs)).data).asString)
            h2 := none
            h3 := none }) ∧
    (∀ (fp fn : String) (st : MdVisitState) (v : String) (lang : Option String)
        (pos : Option Nat) (cs : List MdNode),
      mdVisitStep fp fn st (.node "heading" 2 v lang pos cs) =
        { st with
            h2 := some ((trimList
              (mdToString (MdNode.node "heading" 2 v lang pos cs)).data).asString)
            h3 := none }) ∧
    parseMarkdownAst "guide.md" "guide.md" c7Ast =
      [{ filePath := "guide.md", fileName := "guide.md",
         heading1 := some "Overview", heading2 := some "Setup",
         heading3 := none, contentType := "code", language := some "bash",
         content := "npm install", lineNumber := 5, order := 0 }] :=
  ⟨fun _ _ _ _ _ _ _ => rfl, fun _ _ _ _ _ _ _ => rfl, by decide⟩

/-! ## C8 and C10: the record store -/

theorem insertLoop_spec (ok : DbOp → Bool) (columns : List String) :
    ∀ (rows : List (List (String × SqlVal))) (l : List (List String))
      (art : Option (List (List String))) (c : Nat),
      insertLoop ok columns rows ⟨some l, art⟩ c =
        (⟨some (l ++ (rows.filter fun r =>
            ok (.insertRow (encodeRow columns r))).map (encodeRow columns)),
          art⟩,
         c + (rows.filter fun r =>
            ok (.insertRow (encodeRow columns r))).length) := by
  intro rows
  induction rows with
  | nil => intro l art c; simp [insertLoop]
  | cons row rest ih =>
    intro l art c
    rw [insertLoop]
    cases hok : ok (.insertRow (encodeRow columns row)) with
    | true =>
      simp only [if_pos rfl, applyOp, Option.getD_some]
      rw [ih (l ++ [encodeRow columns row]) art (c + 1)]
      simp [List.filter, hok]
      omega
    | false =>
      simp only [Bool.false_eq_true, if_false]
      rw [ih l art c]
      simp [List.filter, hok]

/-- **C8** (confirmed).  For every non-empty batch: when drop, create and
copy succeed, rows whose insert fails are skipped while every remaining row
is still inserted (the staged table and exported artifact consist of exactly
the successfully inserted rows, in order) and the reported count is the
number of successes; a failure of the table-creation step, or of the final
export step, instead propagates an error to the caller and leaves any
previously exported artifact untouched — no artifact from the failed run is
published.  (Row encoding itself is total on the value types the ETL emits,
so only insert failures arise per-row.) -/
theorem writeDataToParquet_spec (ok : DbOp → Bool) (columns : List String)
    (rows : List (List (String × SqlVal))) (st : DbState)
    (hne : rows ≠ []) :
    (ok .dropTable = true → ok .createTable = true → ok .copyTo = true →
      writeDataToParquet ok (some rows) columns st =
        (.ok (some ((rows.filter fun r =>
            ok (.insertRow (encodeRow columns r))).length)),
         { table := some ((rows.filter fun r =>
              ok (.insertRow (encodeRow columns r))).map (encodeRow columns)),
           artifact := some ((rows.filter fun r =>
              ok (.insertRow (encodeRow columns r))).map (encodeRow columns)) })) ∧
    (ok .dropTable = true → ok .createTable = false →
      (writeDataToParquet ok (some rows) columns st).1 = .error "create failed" ∧
      (writeDataToParquet ok (some rows) columns st).2.artifact = st.artifact) ∧
    (ok .dropTable = true → ok .createTable = true → ok .copyTo = false →
      (writeDataToParquet ok (some rows) columns st).1 = .error "copy failed" ∧
      (writeDataToParquet ok (some rows) columns st).2.artifact = st.artifact) := by
  cases rows with
  | nil => exact absurd rfl hne
  | cons row rest =>
    refine ⟨?_, ?_, ?_⟩
    · intro h1 h2 h3
      rw [writeDataToParquet]
      simp only [h1, h2, h3, Bool.not_true, Bool.false_eq_true, if_false,
        applyOp]
      rw [insertLoop_spec ok columns (row :: rest) [] st.artifact 0]
      simp [applyOp]
      simp
    · intro h1 h2
      rw [writeDataToParquet]
      simp only [h1, h2, Bool.not_true, Bool.not_false, Bool.false_eq_true,
        if_false, if_pos rfl, applyOp]
      exact ⟨rfl, rfl⟩
      simp
    · intro h1 h2 h3
      rw [writeDataToParquet]
      simp only [h1, h2, h3, Bool.not_true, Bool.not_false, Bool.false_eq_true,
        if_false, if_pos rfl, applyOp]
      rw [insertLoop_spec ok columns (row :: rest) [] st.artifact 0]
      exact ⟨rfl, rfl⟩
      simp

/-- Witness batch for C8: the first row's insert fails, the second
succeeds. -/
def c8Rows : List (List (String × SqlVal)) :=
  [[("content", SqlVal.vstr "bad")], [("content", SqlVal.vstr "good")]]

/-- Witness oracle for C8: every statement succeeds except the insert of the
encoded first row. -/
def c8Ok : DbOp → Bool := fun op => !(op == DbOp.insertRow ["'bad'"])

theorem writeDataToParquet_spec_witness :
    writeDataToParquet c8Ok (some c8Rows) ["content"] ⟨none, none⟩ =
      (.ok (some ((c8Rows.filter fun r =>
          c8Ok (.insertRow (encodeRow ["content"] r))).length)),
       { table := some ((c8Rows.filter fun r =>
            c8Ok (.insertRow (encodeRow ["content"] r))).map
              (encodeRow ["content"])),
         artifact := some ((c8Rows.filter fun r =>
            c8Ok (.insertRow (encodeRow ["content"] r))).map
              (encodeRow ["content"])) }) :=
  (writeDataToParquet_spec c8Ok ["content"] c8Rows ⟨none, none⟩
      (by decide)).1 (by decide) (by decide) (by decide)

/-- **C10** (confirmed).  Called with a missing or empty batch, the record
store write returns before dropping the table and before exporting: the
database state — in particular any previously exported artifact of the same
name — is left completely unchanged. -/
theorem writeDataToParquet_empty_frame (ok : DbOp → Bool)
    (columns : List String) (st : DbState) :
    writeDataToParquet ok none columns st = (.ok none, st) ∧
    writeDataToParquet ok (some []) columns st = (.ok none, st) ∧
    (writeDataToParquet ok (some []) columns st).2.artifact = st.artifact ∧
    (writeDataToParquet ok (some []) columns st).2.table = st.table :=
  ⟨rfl, rfl, rfl, rfl⟩

/-! ## C9: fetch by path -/

/-- **C9** (confirmed).  For every non-empty path argument (normalized by
prefixing `fern/` when absent, which is how the handler spells "that
filePath"): if some stored record of the ContentBlock artifact matches the
normalized path, its content is returned as the raw result (ContentBlock
contents are non-empty by the parser's construction, which the hypothesis
`hstore` records); only when no stored record matches is the original
document read from the filesystem; if that read reports `ENOENT` the
handler fails with the not-found error, which is distinct from the generic
retrieval error raised for any other I/O failure. -/
theorem handleGetDoc_spec (p : String) (store : List MdRow)
    (fs : String → FsResult) (hp : p.isEmpty = false)
    (hstore : ∀ r ∈ store, r.content.isEmpty = false) :
    (∀ r : MdRow,
      (store.filter fun r2 => r2.filePath == fernPath p).head? = some r →
      handleGetDoc p store fs = .ok r.content) ∧
    ((∀ r ∈ store, r.filePath ≠ fernPath p) →
      ((∀ c, fs ("/app/elevenlabs-docs/" ++ fernPath p) = .found c →
          handleGetDoc p store fs = .ok c) ∧
       (fs ("/app/elevenlabs-docs/" ++ fernPath p) = .enoent →
          handleGetDoc p store fs = .error (.notFound (fernPath p))) ∧
       (fs ("/app/elevenlabs-docs/" ++ fernPath p) = .ioError →
          handleGetDoc p store fs =
            .error (.retrieveFailed (fernPath p))))) ∧
    GetDocError.notFound (fernPath p) ≠
      GetDocError.retrieveFailed (fernPath p) := by
  refine ⟨?_, ?_, by simp⟩
  · intro r hr
    rw [handleGetDoc]
    simp only [hp, Bool.false_eq_true, if_false]
    cases hfl : store.filter (fun r2 => r2.filePath == fernPath p) with
    | nil => rw [hfl] at hr; simp at hr
    | cons a l =>
      rw [hfl] at hr
      simp only [List.head?_cons, Option.some.injEq] at hr
      subst hr
      have hrmem : a ∈ store := by
        have haf : a ∈ store.filter (fun r2 => r2.filePath == fernPath p) := by
          rw [hfl]; exact List.mem_cons_self a l
        exact List.mem_of_mem_filter haf
      have hcne : a.content.isEmpty = false := hstore a hrmem
      simp [List.take_succ_cons, hcne]
  · intro hnone
    have hfl : store.filter (fun r2 => r2.filePath == fernPath p) = [] := by
      rw [List.filter_eq_nil_iff]
      intro r hr
      simp [hnone r hr]
    rw [handleGetDoc]
    simp only [hp, Bool.false_eq_true, if_false, hfl, List.take_nil]
    refine ⟨?_, ?_, ?_⟩
    · intro c hc; rw [fallbackRead, hc]
    · intro hc; rw [fallbackRead, hc]
    · intro hc; rw [fallbackRead, hc]

/-- Witness store for C9: one ContentBlock row under `fern/`. -/
def c9Store : List MdRow :=
  [⟨"fern/docs/pages/intro.mdx", "intro.mdx", none, none, none, "paragraph",
    none, "Welcome to the docs", 1, 0, none⟩]

theorem handleGetDoc_spec_witness :
    handleGetDoc "docs/pages/intro.mdx" c9Store (fun _ => .enoent) =
      .ok "Welcome to the docs" :=
  (handleGetDoc_spec "docs/pages/intro.mdx" c9Store (fun _ => .enoent)
      (by decide) (by decide)).1
    ⟨"fern/docs/pages/intro.mdx", "intro.mdx", none, none, none, "paragraph",
      none, "Welcome to the docs", 1, 0, none⟩
    (by decide)

/-! ## C6: cycle-safe serialization -/

/-- The number of heap identities not yet in the `seen` set: the measure
that shrinks at every object expansion. -/
def unseenCount (h : JHeap) (seen : List Nat) : Nat :=
  ((heapIds h).toFinset \ seen.toFinset).card

/-- `seen2` extends `seen` by a duplicate-free batch of previously unseen
identities — the identities expanded during one (sub)traversal, each
traversed exactly once. -/
def SeenExtends (seen seen2 : List Nat) : Prop :=
  ∃ newIds : List Nat, seen2 = newIds ++ seen ∧ newIds.Nodup ∧
    ∀ i ∈ newIds, i ∉ seen

theorem seenExtends_refl (seen : List Nat) : SeenExtends seen seen :=
  ⟨[], rfl, List.nodup_nil, by simp⟩

theorem seenExtends_sub {seen seen2 : List Nat} (h : SeenExtends seen seen2) :
    ∀ x ∈ seen, x ∈ seen2 := by
  obtain ⟨n, rfl, _, _⟩ := h
  intro x hx
  exact List.mem_append_right n hx

theorem seenExtends_comp {a b c : List Nat} (h1 : SeenExtends a b)
    (h2 : SeenExtends b c) : SeenExtends a c := by
  obtain ⟨n1, rfl, hn1, hd1⟩ := h1
  obtain ⟨n2, rfl, hn2, hd2⟩ := h2
  refine ⟨n2 ++ n1, by rw [List.append_assoc], ?_, ?_⟩
  · rw [List.nodup_append]
    refine ⟨hn2, hn1, ?_⟩
    intro x hx2 hx1
    exact hd2 x hx2 (List.mem_append_left a hx1)
  · intro i hi
    rcases List.mem_append.mp hi with hi2 | hi1
    · intro hia
      exact hd2 i hi2 (List.mem_append_right n1 hia)
    · exact hd1 i hi1

theorem seenExtends_of_cons {id : Nat} {seen c : List Nat}
    (hnot : id ∉ seen) (h : SeenExtends (id :: seen) c) :
    SeenExtends seen c := by
  obtain ⟨n, rfl, hn, hd⟩ := h
  refine ⟨n ++ [id], by simp, ?_, ?_⟩
  · rw [List.nodup_append]
    refine ⟨hn, List.nodup_singleton id, ?_⟩
    intro x hx hx1
    have : x = id := by simpa using hx1
    subst this
    exact hd x hx (List.mem_cons_self x seen)
  · intro i hi
    rcases List.mem_append.mp hi with hi1 | hi2
    · intro hia
      exact hd i hi1 (List.mem_cons_of_mem id hia)
    · have : i = id := by simpa using hi2
      subst this
      exact hnot

theorem heapFields_eq_nil {h : JHeap} {id : Nat} (hid : id ∉ heapIds h) :
    heapFields h id = [] := by
  have hlook : List.lookup id h = none := by
    induction h with
    | nil => rfl
    | cons kv rest ih =>
      simp only [heapIds, List.map_cons, List.mem_dedup, List.mem_cons,
        not_or] at hid
      rw [List.lookup_cons]
      have hne : (id == kv.1) = false := by
        simp only [beq_eq_false_iff_ne, ne_eq]
        exact hid.1
      rw [hne]
      apply ih
      simp only [heapIds, List.mem_dedup]
      exact hid.2
  rw [heapFields, hlook]
  rfl

theorem serialize_decomp (h : JHeap) : ∀ fuel : Nat,
    (∀ (v : JVal) (seen : List Nat) (r : String × List Nat),
      serializeVal h fuel v seen = some r → SeenExtends seen r.2) ∧
    (∀ (fields : List (String × JVal)) (seen : List Nat)
      (r : String × List Nat),
      serializeFields h fuel fields seen = some r → SeenExtends seen r.2) := by
  intro fuel
  induction fuel with
  | zero =>
    have hval : ∀ (v : JVal) (seen : List Nat) (r : String × List Nat),
        serializeVal h 0 v seen = some r → SeenExtends seen r.2 := by
      intro v seen r hr
      cases v with
      | vnull => simp [serializeVal] at hr; rw [← hr]; exact seenExtends_refl _
      | vbool b => simp [serializeVal] at hr; rw [← hr]; exact seenExtends_refl _
      | vnum n => simp [serializeVal] at hr; rw [← hr]; exact seenExtends_refl _
      | vstr s => simp [serializeVal] at hr; rw [← hr]; exact seenExtends_refl _
      | vobj id =>
        rw [serializeVal] at hr
        by_cases hid : id ∈ seen
        · rw [if_pos hid] at hr
          have : r.2 = seen := by
            cases r; simp at hr; exact hr.2.symm
          rw [this]; exact seenExtends_refl _
        · rw [if_neg hid] at hr
          exact absurd hr (by simp)
    refine ⟨hval, ?_⟩
    intro fields
    induction fields with
    | nil =>
      intro seen r hr
      simp [serializeFields] at hr
      rw [← hr]; exact seenExtends_refl _
    | cons kv rest ih =>
      intro seen r hr
      rw [serializeFields] at hr
      cases hv : serializeVal h 0 kv.2 seen with
      | none => rw [hv] at hr; exact absurd hr (by simp)
      | some r1 =>
        rw [hv] at hr
        cases hf : serializeFields h 0 rest r1.2 with
        | none => simp only [hf] at hr; exact absurd hr (by simp)
        | some r2 =>
          simp only [hf] at hr
          have he1 : SeenExtends seen r1.2 := hval kv.2 seen r1 hv
          have he2 : SeenExtends r1.2 r2.2 := ih r1.2 r2 hf
          have : r.2 = r2.2 := by
            cases r; simp at hr; exact hr.2.symm
          rw [this]
          exact seenExtends_comp he1 he2
  | succ n IH =>
    have hval : ∀ (v : JVal) (seen : List Nat) (r : String × List Nat),
        serializeVal h (n + 1) v seen = some r → SeenExtends seen r.2 := by
      intro v seen r hr
      cases v with
      | vnull => simp [serializeVal] at hr; rw [← hr]; exact seenExtends_refl _
      | vbool b => simp [serializeVal] at hr; rw [← hr]; exact seenExtends_refl _
      | vnum n2 => simp [serializeVal] at hr; rw [← hr]; exact seenExtends_refl _
      | vstr s => simp [serializeVal] at hr; rw [← hr]; exact seenExtends_refl _
      | vobj id =>
        rw [serializeVal] at hr
        by_cases hid : id ∈ seen
        · rw [if_pos hid] at hr
          have : r.2 = seen := by
            cases r; simp at hr; exact hr.2.symm
          rw [this]; exact seenExtends_refl _
        · rw [if_neg hid] at hr
          cases hf : serializeFields h n (heapFields h id) (id :: seen) with
          | none => simp only [hf] at hr; exact absurd hr (by simp)
          | some r2 =>
            simp only [hf] at hr
            have he2 : SeenExtends (id :: seen) r2.2 :=
              IH.2 (heapFields h id) (id :: seen) r2 hf
            have : r.2 = r2.2 := by
              cases r; simp at hr; exact hr.2.symm
            rw [this]
            exact seenExtends_of_cons hid he2
    refine ⟨hval, ?_⟩
    intro fields
    induction fields with
    | nil =>
      intro seen r hr
      simp [serializeFields] at hr
      rw [← hr]; exact seenExtends_refl _
    | cons kv rest ih =>
      intro seen r hr
      rw [serializeFields] at hr
      cases hv : serializeVal h (n + 1) kv.2 seen with
      | none => rw [hv] at hr; exact absurd hr (by simp)
      | some r1 =>
        rw [hv] at hr
        cases hf : serializeFields h (n + 1) rest r1.2 with
        | none => simp only [hf] at hr; exact absurd hr (by simp)
        | some r2 =>
          simp only [hf] at hr
          have he1 : SeenExtends seen r1.2 := hval kv.2 seen r1 hv
          have he2 : SeenExtends r1.2 r2.2 := ih r1.2 r2 hf
          have : r.2 = r2.2 := by
            cases r; simp at hr; exact hr.2.symm
          rw [this]
          exact seenExtends_comp he1 he2

theorem unseenCount_cons_lt (h : JHeap) {id : Nat} {seen : List Nat}
    (hmem : id ∈ heapIds h) (hnot : id ∉ seen) :
    unseenCount h (id :: seen) < unseenCount h seen := by
  rw [unseenCount, unseenCount]
  have hset : (heapIds h).toFinset \ (id :: seen).toFinset =
      ((heapIds h).toFinset \ seen.toFinset).erase id := by
    rw [List.toFinset_cons]
    ext x
    simp only [Finset.mem_sdiff, Finset.mem_insert, Finset.mem_erase, not_or]
    tauto
  rw [hset]
  apply Finset.card_erase_lt_of_mem
  simp only [Finset.mem_sdiff, List.mem_toFinset]
  exact ⟨hmem, hnot⟩

theorem unseenCount_mono (h : JHeap) {s1 s2 : List Nat}
    (hsub : ∀ x ∈ s1, x ∈ s2) : unseenCount h s2 ≤ unseenCount h s1 := by
  rw [unseenCount, unseenCount]
  apply Finset.card_le_card
  intro x hx
  simp only [Finset.mem_sdiff, List.mem_toFinset] at hx ⊢
  exact ⟨hx.1, fun hc => hx.2 (hsub x hc)⟩

theorem serialize_total (h : JHeap) : ∀ fuel : Nat,
    (∀ (v : JVal) (seen : List Nat), unseenCount h seen < fuel →
      (serializeVal h fuel v seen).isSome = true) ∧
    (∀ (fields : List (String × JVal)) (seen : List Nat),
      unseenCount h seen < fuel →
      (serializeFields h fuel fields seen).isSome = true) := by
  intro fuel
  induction fuel with
  | zero =>
    exact ⟨fun v seen hlt => absurd hlt (Nat.not_lt_zero _),
      fun fields seen hlt => absurd hlt (Nat.not_lt_zero _)⟩
  | succ n IH =>
    have hval : ∀ (v : JVal) (seen : List Nat), unseenCount h seen < n + 1 →
        (serializeVal h (n + 1) v seen).isSome = true := by
      intro v seen hlt
      cases v with
      | vnull => simp [serializeVal]
      | vbool b => simp [serializeVal]
      | vnum n2 => simp [serializeVal]
      | vstr s => simp [serializeVal]
      | vobj id =>
        rw [serializeVal]
        by_cases hid : id ∈ seen
        · rw [if_pos hid]; rfl
        · rw [if_neg hid]
          have hfields : (serializeFields h n (heapFields h id)
              (id :: seen)).isSome = true := by
            by_cases hmem : id ∈ heapIds h
            · apply IH.2
              have h1 : unseenCount h (id :: seen) < unseenCount h seen :=
                unseenCount_cons_lt h hmem hid
              omega
            · rw [heapFields_eq_nil hmem]
              rw [serializeFields]
              rfl
          cases hf : serializeFields h n (heapFields h id) (id :: seen) with
          | none => rw [hf] at hfields; exact absurd hfields (by simp)
          | some r2 => simp [hf]
    refine ⟨hval, ?_⟩
    intro fields
    induction fields with
    | nil => intro seen _; simp [serializeFields]
    | cons kv rest ih =>
      intro seen hlt
      rw [serializeFields]
      cases hv : serializeVal h (n + 1) kv.2 seen with
      | none =>
        have := hval kv.2 seen hlt
        rw [hv] at this
        exact absurd this (by simp)
      | some r1 =>
        have hext : SeenExtends seen r1.2 :=
          (serialize_decomp h (n + 1)).1 kv.2 seen r1 hv
        have hlt1 : unseenCount h r1.2 < n + 1 :=
          lt_of_le_of_lt (unseenCount_mono h (seenExtends_sub hext)) hlt
        have hrest := ih r1.2 hlt1
        cases hf : serializeFields h (n + 1) rest r1.2 with
        | none => rw [hf] at hrest; exact absurd hrest (by simp)
        | some r2 => simp [hf]

/-- **C6** (confirmed).  The schema serialization of `safeStringify`
terminates on every input object graph, cyclic ones included: with the fuel
`heapBound h` the traversal never runs out (conjunct 2, for every graph and
every start value); every object encountered a second time by identity —
i.e. whose identity is already in the shared seen set — is replaced by the
marker `"[Circular]"` without being descended into (conjunct 1); and no
object is ever traversed twice: the identities added to the seen set by any
(sub)traversal are pairwise distinct and disjoint from the identities
already seen (conjunct 3). -/
theorem safeStringify_cycle_safe :
    (∀ (h : JHeap) (fuel id : Nat) (seen : List Nat), id ∈ seen →
      serializeVal h fuel (.vobj id) seen =
        some (renderJsonStr "[Circular]", seen)) ∧
    (∀ (h : JHeap) (v : JVal),
      (serializeVal h (heapBound h) v []).isSome = true) ∧
    (∀ (h : JHeap) (fuel : Nat) (v : JVal) (seen : List Nat)
      (r : String × List Nat), serializeVal h fuel v seen = some r →
      ∃ newIds : List Nat, r.2 = newIds ++ seen ∧ newIds.Nodup ∧
        ∀ i ∈ newIds, i ∉ seen) := by
  refine ⟨?_, ?_, ?_⟩
  · intro h fuel id seen hid
    rw [serializeVal.eq_def]
    cases fuel <;> simp [hid]
  · intro h v
    apply (serialize_total h (heapBound h)).1
    rw [heapBound, unseenCount]
    have hle : ((heapIds h).toFinset \ ([] : List Nat).toFinset).card ≤
        (heapIds h).length := by
      calc ((heapIds h).toFinset \ ([] : List Nat).toFinset).card
          ≤ (heapIds h).toFinset.card := Finset.card_le_card Finset.sdiff_subset
        _ ≤ (heapIds h).length := (heapIds h).toFinset_card_le
    omega
  · intro h fuel v seen r hr
    exact (serialize_decomp h fuel).1 v seen r hr

/-- The one-object cyclic heap `{ self: <itself> }`. -/
def c6Heap : JHeap := [(0, [("self", JVal.vobj 0)])]

/-- Witness for C6: on the cyclic heap the re-encountered identity is
replaced by the marker, the chosen fuel suffices, and the whole serialized
output of `safeStringify` is the finite string
`{"self":"[Circular]"}`. -/
theorem safeStringify_cycle_safe_witness :
    serializeVal c6Heap 3 (.vobj 0) [0] =
      some (renderJsonStr "[Circular]", [0]) ∧
    (serializeVal c6Heap (heapBound c6Heap) (.vobj 0) []).isSome = true ∧
    safeStringify c6Heap (.vobj 0) = "\x7b\"self\":\"[Circular]\"\x7d" := by
  refine ⟨safeStringify_cycle_safe.1 c6Heap 3 0 [0] (by decide),
    safeStringify_cycle_safe.2.1 c6Heap (.vobj 0), ?_⟩
  have hb : heapBound c6Heap = 2 := by decide
  have hinner : serializeVal c6Heap 1 (.vobj 0) [0] =
      some (renderJsonStr "[Circular]", [0]) :=
    safeStringify_cycle_safe.1 c6Heap 1 0 [0] (by decide)
  have hfields : serializeFields c6Heap 1 [("self", JVal.vobj 0)] [0] =
      some (renderJsonStr "self" ++ ":" ++ renderJsonStr "[Circular]" ++ "" ++ "",
        [0]) := by
    rw [serializeFields.eq_def]
    simp only [hinner]
    rw [serializeFields.eq_def]
    decide
  have houter : serializeVal c6Heap 2 (.vobj 0) [] =
      some ("\x7b" ++ (renderJsonStr "self" ++ ":" ++ renderJsonStr "[Circular]" ++
        "" ++ "") ++ "\x7d", [0]) := by
    rw [serializeVal.eq_def]
    have hf : heapFields c6Heap 0 = [("self", JVal.vobj 0)] := by decide
    simp only [List.not_mem_nil, if_false, hf, hfields]
  rw [safeStringify.eq_def, hb, houter]
  decide

/-! ## C2: schema deduplication and usage accumulation -/

